import Mathlib

/-!
# Verification of the Meta VSC descriptor runtime scoring core

Shallow embedding of the scoring core of the `meta-vsc-descriptor-runtime`
repository (`runtime/scoring/metric.py` and `runtime/scoring/generate_rankings.py`),
together with theorems settling the specified claims.

Numeric model: IEEE-754 doubles are modelled by `FVal`, exact rationals extended
with `nan` and the two infinities.  All arithmetic in the scored pipeline is
exact on finite values (sums, differences, products and quotients of machine
floats at the sizes involved here round only the final binary digits and never
change NaN-ness, orderings at distinct rationals, or comparisons used by the
code), so the rational model is faithful for every property below.
-/

/-- Model of an IEEE-754 double: a finite rational, NaN, `+inf` or `-inf`. -/
inductive FVal where
  | fin (q : ℚ)
  | nan
  | inf
  | ninf
deriving DecidableEq, Repr, Inhabited

namespace FVal

/-- Is the value finite? -/
def isFin : FVal → Bool
  | fin _ => true
  | _ => false

/-- IEEE equality (`==` in Python / numpy): `nan` is not equal to anything,
including itself. -/
def pyEqF : FVal → FVal → Bool
  | fin a, fin b => a == b
  | inf, inf => true
  | ninf, ninf => true
  | _, _ => false

/-- IEEE strict less-than (`<` in Python / numpy): any comparison involving
`nan` is false. -/
def pyLtF : FVal → FVal → Bool
  | fin a, fin b => a < b
  | fin _, inf => true
  | ninf, fin _ => true
  | ninf, inf => true
  | _, _ => false

/-- IEEE less-or-equal (numpy `<=`): any comparison involving `nan` is false. -/
def leF : FVal → FVal → Bool
  | fin a, fin b => a ≤ b
  | fin _, inf => true
  | ninf, fin _ => true
  | ninf, inf => true
  | inf, inf => true
  | ninf, ninf => true
  | _, _ => false

/-- IEEE addition on the model. -/
def addF : FVal → FVal → FVal
  | fin a, fin b => fin (a + b)
  | fin _, inf => inf
  | inf, fin _ => inf
  | fin _, ninf => ninf
  | ninf, fin _ => ninf
  | inf, inf => inf
  | ninf, ninf => ninf
  | _, _ => nan

/-- IEEE subtraction on the model. -/
def subF : FVal → FVal → FVal
  | fin a, fin b => fin (a - b)
  | fin _, inf => ninf
  | inf, fin _ => inf
  | fin _, ninf => inf
  | ninf, fin _ => ninf
  | inf, ninf => inf
  | ninf, inf => ninf
  | _, _ => nan

/-- IEEE multiplication on the model (`0 * inf = nan`). -/
def mulF : FVal → FVal → FVal
  | fin a, fin b => fin (a * b)
  | fin a, inf => if a > 0 then inf else if a < 0 then ninf else nan
  | inf, fin a => if a > 0 then inf else if a < 0 then ninf else nan
  | fin a, ninf => if a > 0 then ninf else if a < 0 then inf else nan
  | ninf, fin a => if a > 0 then ninf else if a < 0 then inf else nan
  | inf, inf => inf
  | ninf, ninf => inf
  | inf, ninf => ninf
  | ninf, inf => ninf
  | _, _ => nan

/-- IEEE (numpy true) division on the model: `0/0 = nan`, `x/0 = ±inf` for
nonzero finite `x`. -/
def divF : FVal → FVal → FVal
  | fin a, fin b =>
      if b = 0 then (if a = 0 then nan else if a > 0 then inf else ninf)
      else fin (a / b)
  | fin _, inf => fin 0
  | fin _, ninf => fin 0
  | inf, fin a => if a < 0 then ninf else inf
  | ninf, fin a => if a < 0 then inf else ninf
  | _, _ => nan

end FVal

/-- `np.sum` / `.sum()`: left fold of IEEE addition starting from `0.0`. -/
def sumF (l : List FVal) : FVal := l.foldl FVal.addF (FVal.fin 0)

/-- Python tuple comparison `k1 < k2` on `(score, bool)` sort keys, as used by
`sorted(..., key=...)` in `argsort`: compare first components with IEEE `==` /
`<`; on equal first components compare booleans (`False < True`). -/
def pyLtKey (k1 k2 : FVal × Bool) : Bool :=
  if FVal.pyEqF k1.1 k2.1 then (!k1.2 && k2.2) else FVal.pyLtF k1.1 k2.1

/-- `argsort(seq)` from `metric.py`: `sorted(range(len(seq)), key=seq.__getitem__)`.
Python's sort is stable and ascending; it is modelled by `List.insertionSort`
with the reflexive relation `¬ key j < key i` (insert before the first element
not strictly below you), which produces the identical stable ascending order
for every total key preorder. -/
def argsort (keys : List (FVal × Bool)) : List ℕ :=
  List.insertionSort
    (fun i j => pyLtKey (keys.getD j (FVal.fin 0, false)) (keys.getD i (FVal.fin 0, false)) = false)
    (List.range keys.length)

/-- Inclusive prefix sums, `np.cumsum` on a list of naturals. -/
def cumsum : List ℕ → List ℕ
  | [] => []
  | x :: xs => x :: (cumsum xs).map (x + ·)

/-- The sort keys `zip(probas_pred, ~y_true)` built by `precision_recall`
(`metric.py` line 40); `zip` truncates to the shorter input. -/
def prKeys (y_true : List Bool) (probas_pred : List FVal) : List (FVal × Bool) :=
  probas_pred.zip (y_true.map (!·))

/-- The final candidate order used by `precision_recall`: ascending stable
argsort of `(score, NOT judgement)` keys, then reversed (`order[::-1]`,
`metric.py` lines 40-41). -/
def prOrder (y_true : List Bool) (probas_pred : List FVal) : List ℕ :=
  (argsort (prKeys y_true probas_pred)).reverse

/-- `precision_recall(y_true, probas_pred, num_positives)` from `metric.py`:
sort by decreasing score (worst-case tie order), then
`precisions = cumsum(y)/[1..n]`, `recalls = cumsum(y)/num_positives`,
thresholds = the sorted scores.  Integer/float division is IEEE true division
(`0/0 = nan`). -/
def precision_recall (y_true : List Bool) (probas_pred : List FVal) (num_positives : ℕ) :
    List FVal × List FVal × List FVal :=
  let ord := prOrder y_true probas_pred
  let y := ord.map (fun i => y_true.getD i false)
  let t := ord.map (fun i => probas_pred.getD i (FVal.fin 0))
  let ntp := cumsum (y.map (fun b => if b then 1 else 0))
  let precisions := List.zipWith
    (fun (a : ℕ) (k : ℕ) => FVal.divF (FVal.fin (a : ℚ)) (FVal.fin ((k + 1 : ℕ) : ℚ)))
    ntp (List.range ntp.length)
  let recalls := ntp.map
    (fun (a : ℕ) => FVal.divF (FVal.fin (a : ℚ)) (FVal.fin (num_positives : ℚ)))
  (precisions, recalls, t)

/-- `average_precision(recalls, precisions)` from `metric.py`: raises unless
`recalls[:-1] <= recalls[1:]` holds elementwise (`np.all`), else returns
`((recalls - concatenate([[0], recalls[:-1]])) * precisions).sum()`. -/
def average_precision (recalls precisions : List FVal) : Except String FVal :=
  if (List.zipWith FVal.leF recalls.dropLast (recalls.drop 1)).all (fun b => b) then
    .ok (sumF (List.zipWith FVal.mulF
      (List.zipWith FVal.subF recalls (FVal.fin 0 :: recalls.dropLast)) precisions))
  else
    .error "recalls array must be sorted before passing in"

/-- `np.argmax` on a 1-D float array: the first NaN position when a NaN is
present (NaN propagates as the maximum), otherwise the first position
attaining the maximum. -/
def npArgmax (l : List FVal) : ℕ :=
  match l.findIdx? (· = FVal.nan) with
  | some i => i
  | none =>
      (List.range l.length).foldl
        (fun best i =>
          if FVal.pyLtF (l.getD best FVal.nan) (l.getD i FVal.nan) then i else best) 0

/-- `find_operating_point(x, y, z, required_x)` from `metric.py`: keep the
points with `x >= required_x`; if none, return `(required_x, None, None)`,
else the point of maximal `y` among them. -/
def find_operating_point (x y z : List FVal) (required_x : FVal) :
    FVal × Option FVal × Option FVal :=
  let validIdx := (List.range x.length).filter (fun i => FVal.leF required_x (x.getD i FVal.nan))
  match validIdx with
  | [] => (required_x, none, none)
  | _ :: _ =>
      let vx := validIdx.map (fun i => x.getD i FVal.nan)
      let vy := validIdx.map (fun i => y.getD i FVal.nan)
      let vz := validIdx.map (fun i => z.getD i FVal.nan)
      let best := npArgmax vy
      (vx.getD best FVal.nan, some (vy.getD best FVal.nan), some (vz.getD best FVal.nan))

/-- A row of the ground-truth table: `reference_id = none` models a missing
(NaN) reference id in the CSV. -/
structure GtRow where
  query_id : ℤ
  reference_id : Option ℤ
deriving DecidableEq, Repr

/-- A row of the submission dataframe. -/
structure SubRow where
  query_id : ℤ
  reference_id : ℤ
  score : FVal
deriving DecidableEq, Repr

/-- The set comprehension at the top of `evaluate_metrics` (`metric.py`
lines 100-104): the set of `(query_id, reference_id)` pairs of the ground
truth whose `reference_id` is not NaN.  The set is modelled by a
duplicate-free list. -/
def gt_pairs (gt : List GtRow) : List (ℤ × ℤ) :=
  (gt.filterMap (fun row => row.reference_id.map (fun r => (row.query_id, r)))).dedup

/-- `evaluate_metrics(submission_df, gt_df)` from `metric.py`: membership test
against `gt_pairs` gives `y_true`, `num_positives = len(gt_pairs)`; the
exception raised by `average_precision` propagates.  Returns `(ap, rp90)`. -/
def evaluate_metrics (submission : List SubRow) (gt : List GtRow) :
    Except String (FVal × FVal) :=
  let pairs := gt_pairs gt
  let y_true := submission.map (fun row => decide ((row.query_id, row.reference_id) ∈ pairs))
  let probas_pred := submission.map (·.score)
  let prt := precision_recall y_true probas_pred pairs.length
  match average_precision prt.2.1 prt.1 with
  | .error e => .error e
  | .ok ap =>
      let fop := find_operating_point prt.1 prt.2.1 prt.2.2 (FVal.fin (9 / 10))
      .ok (ap, fop.2.1.getD (FVal.fin 0))

/-! ## Batch sequencing (`query_iterator`, `generate_rankings.py` lines 22-34) -/

/-- Loop body of `query_iterator`: `b + 1` is the current batch size `bs`
(kept in successor form: `bs` starts at `32` and only doubles, so it is always
positive).  Each step yields `min bs remaining` indices and doubles `bs` while
`bs < 20_000`.  The loop consumes at least one query index per iteration, so a
fuel of `remaining` iterations is always sufficient; `fuel` only makes the
recursion structural. -/
def batchGo : (fuel : ℕ) → (r : ℕ) → (b : ℕ) → List ℕ
  | 0, _, _ => []
  | fuel + 1, r, b =>
      if r = 0 then []
      else
        min (b + 1) r ::
          batchGo fuel (r - min (b + 1) r) (if b + 1 < 20000 then 2 * (b + 1) - 1 else b)

/-- The sizes of the sub-batches yielded by `query_iterator(xq)` for a query
collection of `nq` rows: the loop starts with `bs = 32`. -/
def queryBatchSizes (nq : ℕ) : List ℕ := batchGo nq nq 31

/-- Nominal batch size of the `k`-th batch, starting from batch size `bs`:
doubles at each step while below `20_000`, held constant afterwards. -/
def nominalFrom (bs : ℕ) : ℕ → ℕ
  | 0 => bs
  | k + 1 => nominalFrom (if bs < 20000 then 2 * bs else bs) k

/-- Nominal size of the `k`-th batch of `query_iterator`: starts at `32`,
doubles each batch while below the `20_000` cap, held constant afterwards. -/
def nominalBatch (k : ℕ) : ℕ := nominalFrom 32 k

/-! ## Result cropping (`search_with_capped_res`, `generate_rankings.py`
lines 37-70).  The raw `(lims, dis, ids)` triple produced by the faiss
`range_search_max_results` call is external library output and enters the
model as an argument; the crop step that follows it is repository code. -/

/-- The index set `o = dis.argpartition(num_results)[:num_results]`
(`generate_rankings.py` line 59).  `np.argpartition` guarantees that the
selected `num_results` positions hold distances no larger than every
non-selected position; it is modelled by the deterministic selection of the
`num_results` positions smallest in the lexicographic `(distance, position)`
order, which satisfies exactly that partition contract. -/
def cropIndices (dis : List ℚ) (num_results : ℕ) : List ℕ :=
  (List.insertionSort
    (fun i j => dis.getD i 0 < dis.getD j 0 ∨ (dis.getD i 0 = dis.getD j 0 ∧ i ≤ j))
    (List.range dis.length)).take num_results

/-- The crop step of `search_with_capped_res` (`generate_rankings.py`
lines 55-70): if the raw hit count `n = len(dis)` exceeds `num_results`,
keep the `num_results` best (smallest-distance) hits, rebuild the per-query
boundary array from the kept-mask counts of each raw segment
`lims[i]..lims[i+1]`, and return the cropped triple; otherwise return the
raw triple unchanged. -/
def search_with_capped_res_crop (nq : ℕ) (lims : List ℕ) (dis : List ℚ) (ids : List ℤ)
    (num_results : ℕ) : List ℕ × List ℚ × List ℤ :=
  let n := dis.length
  if num_results < n then
    let o := cropIndices dis num_results
    let mask : ℕ → Bool := fun j => j ∈ o
    let keep := (List.range n).filter mask
    let new_dis := keep.map (fun j => dis.getD j 0)
    let new_ids := keep.map (fun j => ids.getD j 0)
    let nres := 0 :: (List.range nq).map (fun i =>
      (List.range' (lims.getD i 0) (lims.getD (i + 1) 0 - lims.getD i 0)).countP mask)
    (cumsum nres, new_dis, new_ids)
  else
    (lims, dis, ids)

/-- The raw hit positions kept by the crop step: the selected `num_results`
best positions when a crop happens (`n > num_results`), otherwise all of
them. -/
def retainedIndices (dis : List ℚ) (num_results : ℕ) : List ℕ :=
  if num_results < dis.length then cropIndices dis num_results else List.range dis.length

/-- The claim's formula for C6, stated in the spec's words: Σ over curve
points of `(recall_k − recall_{k−1}) × precision_k`, with `recall_0 = 0`.
This is the spec-side definition against which the source's
`average_precision` is compared. -/
def specAveragePrecision (recalls precisions : List ℚ) : ℚ :=
  ∑ k ∈ Finset.range recalls.length,
    (recalls.getD k 0 - (if k = 0 then 0 else recalls.getD (k - 1) 0)) * precisions.getD k 0

/-! ## Reference augmentation (`augment_xb` inside `evaluate_similarity`,
`generate_rankings.py` lines 87-92) -/

/-- Value of one appended coordinate: `np.sqrt x` is NaN exactly when `x < 0`;
for `x ≥ 0` the (generally irrational) square root is represented
symbolically by its radicand. -/
inductive SqrtVal where
  | nan
  | sqrtOf (radicand : ℚ)
deriving DecidableEq, Repr

/-- `np.sqrt` applied to one entry of `phi - norms`. -/
def npSqrt (x : ℚ) : SqrtVal :=
  if x < 0 then SqrtVal.nan else SqrtVal.sqrtOf x

/-- Squared Euclidean norm of a row, `(xb**2).sum(1)` for one row. -/
def sqnorm (row : List ℚ) : ℚ := (row.map (fun x => x * x)).sum

/-- The extra column `np.sqrt(phi - norms)` computed by `augment_xb`
(`generate_rankings.py` line 91); `phi = none` models the default
`phi = norms.max()`. -/
def augment_extracol (xb : List (List ℚ)) (phi : Option ℚ) : List SqrtVal :=
  let norms := xb.map sqnorm
  let phiv := phi.getD (norms.foldl max 0)
  norms.map (fun nrm => npSqrt (phiv - nrm))

/-- `augment_xb(xb, phi)`: each row with its appended extra coordinate
(`np.hstack`, `generate_rankings.py` line 92).  The function raises nothing;
it always returns the augmented matrix. -/
def augment_xb (xb : List (List ℚ)) (phi : Option ℚ) : List (List ℚ × SqrtVal) :=
  xb.zip (augment_extracol xb phi)

/-! ## Candidate aggregation (`evaluate_similarity`, `generate_rankings.py`
lines 108-121) -/

/-- A row of `score_df`: one raw hit with external ids and score `-dis`. -/
structure Hit where
  query_id : ℤ
  reference_id : ℤ
  score : ℚ
deriving DecidableEq, Repr

/-- Grouping key of a hit. -/
def Hit.key (h : Hit) : ℤ × ℤ := (h.query_id, h.reference_id)

/-- Maximum of a list of rationals (`none` on the empty list). -/
def listMax : List ℚ → Option ℚ
  | [] => none
  | x :: xs => some (xs.foldl max x)

/-- `score_df.groupby(["query_id", "reference_id"]).score.max().reset_index()`
(`generate_rankings.py` lines 118-120): one output row per distinct
`(query_id, reference_id)` key, carrying the maximum score among the raw hits
with that key.  pandas emits groups in sorted key order; the claims are
order-independent, and the model emits groups in first-occurrence order. -/
def aggregate_candidates (hits : List Hit) : List Hit :=
  ((hits.map Hit.key).dedup).filterMap (fun k =>
    (listMax ((hits.filter (fun h => h.key = k)).map Hit.score)).map
      (fun m => Hit.mk k.1 k.2 m))

/-! ## Auxiliary lemmas -/

theorem npArgmax_singleton (x : FVal) : npArgmax [x] = 0 := by
  rcases x with q | _ | _ | _ <;>
    simp [npArgmax, List.findIdx?_cons, List.findIdx?_nil, List.range_succ, FVal.pyLtF]

theorem filterMap_filter_of_none {α β : Type} (f : α → Option β) (p : α → Bool)
    (h : ∀ a, p a = false → f a = none) :
    ∀ l : List α, (l.filter p).filterMap f = l.filterMap f := by
  intro l
  induction l with
  | nil => rfl
  | cons a t ih =>
      by_cases hp : p a = true
      · rw [List.filter_cons_of_pos hp, List.filterMap_cons, List.filterMap_cons, ih]
      · rw [List.filter_cons_of_neg (by simpa using hp), List.filterMap_cons,
          h a (by simpa using hp), ih]

/-- `evaluate_metrics` depends on the ground-truth table only through
`gt_pairs`. -/
theorem evaluate_metrics_congr_pairs (sub : List SubRow) {gt₁ gt₂ : List GtRow}
    (h : gt_pairs gt₁ = gt_pairs gt₂) :
    evaluate_metrics sub gt₁ = evaluate_metrics sub gt₂ := by
  unfold evaluate_metrics
  rw [h]

/-! ## C10: ground-truth rows with a missing reference id are ignored -/

/-- **C10** (confirmed).  For every ground-truth table, rows whose
`reference_id` is missing (NaN) are excluded from the positive-pair set
before scoring: `gt_pairs` is unchanged by removing them, a pair is a
positive exactly when some row carries it with a present `reference_id`
(so NaN rows are never counted as true positives and never contribute to
`num_positives = len(gt_pairs)`, the recall denominator), and the whole
metric computation gives the same result with the NaN rows dropped. -/
theorem evaluate_metrics_ignores_nan_rows (gt : List GtRow) (sub : List SubRow) :
    gt_pairs gt = gt_pairs (gt.filter (fun row => row.reference_id.isSome)) ∧
    (∀ q r : ℤ, (q, r) ∈ gt_pairs gt ↔
      ∃ row ∈ gt, row.query_id = q ∧ row.reference_id = some r) ∧
    evaluate_metrics sub gt = evaluate_metrics sub (gt.filter (fun row => row.reference_id.isSome)) := by
  have hfm : gt_pairs gt = gt_pairs (gt.filter (fun row => row.reference_id.isSome)) := by
    unfold gt_pairs
    rw [filterMap_filter_of_none _ _ (fun a ha => ?_) gt]
    rcases h : a.reference_id with _ | v
    · simp
    · rw [h] at ha; simp at ha
  refine ⟨hfm, fun q r => ?_, evaluate_metrics_congr_pairs sub hfm⟩
  unfold gt_pairs
  rw [List.mem_dedup, List.mem_filterMap]
  constructor
  · rintro ⟨row, hmem, hf⟩
    rcases hrow : row.reference_id with _ | v
    · rw [hrow] at hf; simp at hf
    · rw [hrow] at hf
      simp only [Option.map_some', Option.some.injEq, Prod.mk.injEq] at hf
      exact ⟨row, hmem, hf.1, by rw [hrow, hf.2]⟩
  · rintro ⟨row, hmem, hq, hr⟩
    exact ⟨row, hmem, by rw [hr, hq]; rfl⟩

/-! ## C4: geometric batch sizing of `query_iterator` -/

theorem batchGo_sum : ∀ (fuel r b : ℕ), r ≤ fuel → (batchGo fuel r b).sum = r := by
  intro fuel
  induction fuel with
  | zero => intro r b h; interval_cases r; rfl
  | succ fuel ih =>
      intro r b h
      by_cases hr : r = 0
      · subst hr; rfl
      · have hm : 0 < min (b + 1) r := lt_min (Nat.succ_pos b) (Nat.pos_of_ne_zero hr)
        rw [batchGo, if_neg hr, List.sum_cons,
          ih (r - min (b + 1) r) _ (by omega)]
        omega

theorem nominalFrom_succ_comm (bs j : ℕ) :
    nominalFrom bs (j + 1) = (if nominalFrom bs j < 20000 then 2 * nominalFrom bs j
      else nominalFrom bs j) := by
  induction j generalizing bs with
  | zero => rfl
  | succ j ih => rw [nominalFrom, ih, nominalFrom]

theorem batchGo_getD : ∀ (fuel r b : ℕ), r ≤ fuel →
    ∀ j, j < (batchGo fuel r b).length →
      ((batchGo fuel r b).getD j 0 =
        min (nominalFrom (b + 1) j) (r - ((batchGo fuel r b).take j).sum) ∧
      (j + 1 < (batchGo fuel r b).length →
        (batchGo fuel r b).getD j 0 = nominalFrom (b + 1) j)) := by
  intro fuel
  induction fuel with
  | zero => intro r b h j hj; interval_cases r; simp [batchGo] at hj
  | succ fuel ih =>
      intro r b h j hj
      by_cases hr : r = 0
      · subst hr; simp [batchGo] at hj
      · have hm : 0 < min (b + 1) r := lt_min (Nat.succ_pos b) (Nat.pos_of_ne_zero hr)
        have hrec : r - min (b + 1) r ≤ fuel := by omega
        have hb' : (if b + 1 < 20000 then 2 * (b + 1) - 1 else b) + 1 =
            (if b + 1 < 20000 then 2 * (b + 1) else b + 1) := by
          by_cases hc : b + 1 < 20000
          · simp only [if_pos hc]; omega
          · simp only [if_neg hc]
        rw [batchGo, if_neg hr] at hj ⊢
        match j with
        | 0 =>
            constructor
            · simp [nominalFrom]
            · intro h1
              have hrm : r - min (b + 1) r ≠ 0 := by
                intro h0
                rw [List.length_cons] at h1
                have hlen0 : (batchGo fuel (r - min (b + 1) r)
                    (if b + 1 < 20000 then 2 * (b + 1) - 1 else b)).length = 0 := by
                  cases fuel with
                  | zero => rfl
                  | succ fuel => rw [batchGo, if_pos h0]; rfl
                omega
              have hble : b + 1 ≤ r := by omega
              simp [Nat.min_eq_left hble, nominalFrom]
        | j + 1 =>
            simp only [List.length_cons, Nat.add_lt_add_iff_right] at hj
            have ihj := ih (r - min (b + 1) r) (if b + 1 < 20000 then 2 * (b + 1) - 1 else b)
              hrec j hj
            rw [hb'] at ihj
            simp only [List.getD_cons_succ, List.take_succ_cons, List.sum_cons,
              List.length_cons, Nat.add_lt_add_iff_right]
            constructor
            · rw [ihj.1, nominalFrom]
              congr 1
              omega
            · intro h2
              rw [ihj.2 h2, nominalFrom]

/-- **C4** (confirmed).  For every query collection of size `N > 0`,
`query_iterator` yields sub-batches whose sizes follow `nominalBatch`:
the nominal size starts at `32` and doubles on each subsequent batch until
reaching the `20_000` cap (i.e. while it is below `20_000`), after which it
is held constant; every batch except possibly the last has exactly its
nominal size, every batch has size `min (nominal, remaining)`, and the sizes
sum exactly to `N`. -/
theorem query_iterator_batches (N : ℕ) (h : 0 < N) :
    (queryBatchSizes N).sum = N ∧
    queryBatchSizes N ≠ [] ∧
    (∀ j, nominalBatch (j + 1) =
      if nominalBatch j < 20000 then 2 * nominalBatch j else nominalBatch j) ∧
    nominalBatch 0 = 32 ∧
    (∀ j, j < (queryBatchSizes N).length →
      (queryBatchSizes N).getD j 0 =
        min (nominalBatch j) (N - ((queryBatchSizes N).take j).sum)) ∧
    (∀ j, j + 1 < (queryBatchSizes N).length →
      (queryBatchSizes N).getD j 0 = nominalBatch j) := by
  refine ⟨batchGo_sum N N 31 le_rfl, ?_, fun j => nominalFrom_succ_comm 32 j, rfl,
    fun j hj => (batchGo_getD N N 31 le_rfl j hj).1,
    fun j hj => (batchGo_getD N N 31 le_rfl j (Nat.lt_of_succ_lt hj)).2 hj⟩
  unfold queryBatchSizes
  cases N with
  | zero => omega
  | succ n => rw [batchGo, if_neg (Nat.succ_ne_zero n)]; exact List.cons_ne_nil _ _

/-- Witness for C4 at `N = 100`: the batches are `[32, 64, 4]`. -/
theorem query_iterator_batches_witness :
    (queryBatchSizes 100).sum = 100 ∧ (queryBatchSizes 100).getD 0 0 = nominalBatch 0 := by
  refine ⟨(query_iterator_batches 100 (by decide)).1, ?_⟩
  exact (query_iterator_batches 100 (by decide)).2.2.2.2.2 0 (by decide)

/-! ## C5: behaviour of `augment_xb` when `phi` is below a squared norm -/

/-- **C5 counterexample**.  The claim says the augmentation "fails with a
DomainError rather than silently producing a NaN appended coordinate".  At
`xb = [[2]]` (squared norm `4`) and caller-supplied `phi = 1 < 4`, the code
does not fail: `np.sqrt(1 - 4)` is NaN and `augment_xb` returns the
augmented matrix containing the NaN coordinate. -/
theorem augment_xb_nan_counterexample :
    augment_xb [[2]] (some 1) = [([2], SqrtVal.nan)] := by
  norm_num [augment_xb, augment_extracol, sqnorm, npSqrt]

/-- **C5** (amended).  `augment_xb` never fails: for every reference matrix
and caller-supplied `phi`, the appended coordinate of row `i` is NaN exactly
when `phi` is strictly less than that row's squared norm, and the augmented
matrix containing any such NaN coordinates is returned silently (the code
raises nothing; no DomainError exists in the repository). -/
theorem augment_xb_nan_iff (xb : List (List ℚ)) (phi : ℚ) (i : ℕ) (hi : i < xb.length) :
    ((augment_xb xb (some phi)).getD i ([], SqrtVal.nan)).2 = SqrtVal.nan ↔
      phi < sqnorm (xb.getD i []) := by
  have hex : (augment_extracol xb (some phi)).length = xb.length := by
    simp [augment_extracol]
  have hzip : i < (augment_xb xb (some phi)).length := by
    simpa [augment_xb, hex] using hi
  rw [List.getD_eq_getElem?_getD, List.getElem?_eq_getElem hzip, Option.getD_some,
    List.getD_eq_getElem?_getD, List.getElem?_eq_getElem hi, Option.getD_some]
  unfold augment_xb augment_extracol
  simp only [List.getElem_zip, List.getElem_map, Option.getD_some]
  unfold npSqrt
  by_cases hlt : phi - sqnorm xb[i] < 0
  · rw [if_pos hlt]
    constructor
    · intro _; linarith
    · intro _; rfl
  · rw [if_neg hlt]
    constructor
    · intro hcontra; exact SqrtVal.noConfusion hcontra
    · intro hm; exact absurd (by linarith : phi - sqnorm xb[i] < 0) hlt

/-- Witness for the amended C5 at `xb = [[2]]`, `phi = 1`, row `0`. -/
theorem augment_xb_nan_iff_witness :
    ((augment_xb [[2]] (some 1)).getD 0 ([], SqrtVal.nan)).2 = SqrtVal.nan ↔
      (1 : ℚ) < sqnorm ([[(2 : ℚ)]].getD 0 []) :=
  augment_xb_nan_iff [[2]] 1 0 (by decide)

/-! ## C8: `groupby.max` candidate aggregation -/

theorem foldl_max_spec : ∀ (l : List ℚ) (a : ℚ),
    (l.foldl max a = a ∨ l.foldl max a ∈ l) ∧ a ≤ l.foldl max a ∧
      ∀ x ∈ l, x ≤ l.foldl max a := by
  intro l
  induction l with
  | nil => exact fun a => ⟨Or.inl rfl, le_rfl, by simp⟩
  | cons b t ih =>
      intro a
      obtain ⟨hmem, hle, hub⟩ := ih (max a b)
      refine ⟨?_, le_trans (le_max_left a b) hle, ?_⟩
      · rcases hmem with heq | hm
        · rcases max_choice a b with hab | hab
          · exact Or.inl (by rw [List.foldl_cons, heq, hab])
          · exact Or.inr (by rw [List.foldl_cons, heq, hab]; exact List.mem_cons_self b t)
        · exact Or.inr (List.mem_cons_of_mem b hm)
      · intro x hx
        rcases List.mem_cons.mp hx with rfl | hxt
        · exact le_trans (le_max_right a x) hle
        · exact hub x hxt

theorem listMax_spec (l : List ℚ) (m : ℚ) (h : listMax l = some m) :
    m ∈ l ∧ ∀ x ∈ l, x ≤ m := by
  cases l with
  | nil => exact absurd h (by simp [listMax])
  | cons x xs =>
      have hm : m = xs.foldl max x := by
        have := h
        unfold listMax at this
        exact (Option.some.injEq _ _ ▸ this.symm : _)
      obtain ⟨hmem, hle, hub⟩ := foldl_max_spec xs x
      subst hm
      refine ⟨?_, ?_⟩
      · rcases hmem with heq | hmm
        · rw [heq]; exact List.mem_cons_self x xs
        · exact List.mem_cons_of_mem x hmm
      · intro z hz
        rcases List.mem_cons.mp hz with rfl | hzt
        · exact hle
        · exact hub z hzt

theorem aggregate_filterMap_keys (hits : List Hit) :
    ∀ ks : List (ℤ × ℤ), (∀ k ∈ ks, k ∈ hits.map Hit.key) →
      ((ks.filterMap (fun k =>
        (listMax ((hits.filter (fun h => h.key = k)).map Hit.score)).map
          (fun m => Hit.mk k.1 k.2 m))).map Hit.key) = ks := by
  intro ks
  induction ks with
  | nil => intro _; rfl
  | cons k t ih =>
      intro hmem
      obtain ⟨h0, hh0, hk0⟩ := List.mem_map.mp (hmem k (List.mem_cons_self k t))
      have hfil : h0 ∈ hits.filter (fun h => h.key = k) :=
        List.mem_filter.mpr ⟨hh0, by simp [hk0]⟩
      have hscore : h0.score ∈ (hits.filter (fun h => h.key = k)).map Hit.score :=
        List.mem_map.mpr ⟨h0, hfil, rfl⟩
      obtain ⟨m, hm⟩ : ∃ m, listMax ((hits.filter (fun h => h.key = k)).map Hit.score)
          = some m := by
        cases hl : (hits.filter (fun h => h.key = k)).map Hit.score with
        | nil => rw [hl] at hscore; cases hscore
        | cons a b => exact ⟨b.foldl max a, rfl⟩
      rw [List.filterMap_cons, hm, Option.map_some', List.map_cons,
        ih (fun x hx => hmem x (List.mem_cons_of_mem k hx))]
      rfl

/-- **C8** (confirmed).  The `groupby(["query_id","reference_id"]).score.max()`
aggregation produces exactly one candidate row per distinct key appearing in
the raw hits; each row's score is attained by some raw hit with that key and
is an upper bound of all of them (i.e. the maximum); and appending a
duplicate of an existing pair never adds a row. -/
theorem aggregate_candidates_spec (hits : List Hit) :
    ((aggregate_candidates hits).map Hit.key).Nodup ∧
    (∀ k : ℤ × ℤ, (∃ c ∈ aggregate_candidates hits, c.key = k) ↔ k ∈ hits.map Hit.key) ∧
    (∀ c ∈ aggregate_candidates hits,
      (∃ h ∈ hits, h.key = c.key ∧ h.score = c.score) ∧
      ∀ h ∈ hits, h.key = c.key → h.score ≤ c.score) ∧
    (∀ h : Hit, h.key ∈ hits.map Hit.key →
      (aggregate_candidates (hits ++ [h])).length = (aggregate_candidates hits).length) := by
  have hkeys : ∀ l : List Hit, ((aggregate_candidates l).map Hit.key) = (l.map Hit.key).dedup :=
    fun l => aggregate_filterMap_keys l ((l.map Hit.key).dedup)
      (fun k hk => List.mem_dedup.mp hk)
  have hlen : ∀ l : List Hit, (aggregate_candidates l).length = (l.map Hit.key).toFinset.card :=
    fun l => by
      rw [List.card_toFinset, ← hkeys l, List.length_map]
  refine ⟨?_, ?_, ?_, ?_⟩
  · rw [hkeys]; exact List.nodup_dedup _
  · intro k
    constructor
    · rintro ⟨c, hc, rfl⟩
      have : c.key ∈ (aggregate_candidates hits).map Hit.key := List.mem_map.mpr ⟨c, hc, rfl⟩
      rw [hkeys] at this
      exact List.mem_dedup.mp this
    · intro hk
      have : k ∈ (aggregate_candidates hits).map Hit.key := by
        rw [hkeys]; exact List.mem_dedup.mpr hk
      obtain ⟨c, hc, hck⟩ := List.mem_map.mp this
      exact ⟨c, hc, hck⟩
  · intro c hc
    obtain ⟨k, hkdedup, hg⟩ := List.mem_filterMap.mp hc
    obtain ⟨m, hmax, hmk⟩ := Option.map_eq_some'.mp hg
    obtain ⟨hmem, hub⟩ := listMax_spec _ _ hmax
    obtain ⟨h0, hfil, hsc⟩ := List.mem_map.mp hmem
    have hkey0 : h0.key = k := by simpa using (List.mem_filter.mp hfil).2
    have hck : c.key = k := by rw [← hmk]; rfl
    have hcs : c.score = m := by rw [← hmk]
    constructor
    · exact ⟨h0, (List.mem_filter.mp hfil).1, by rw [hkey0, hck], by rw [hsc, hcs]⟩
    · intro h hh hkh
      have : h.score ∈ (hits.filter (fun x => x.key = k)).map Hit.score :=
        List.mem_map.mpr ⟨h, List.mem_filter.mpr ⟨hh, by simp [hkh, hck]⟩, rfl⟩
      rw [hcs]
      exact hub _ this
  · intro h hk
    rw [hlen, hlen, List.map_append]
    congr 1
    rw [List.toFinset_append]
    refine Finset.union_eq_left.mpr ?_
    intro x hx
    simp only [List.map_cons, List.map_nil, List.toFinset_cons, List.toFinset_nil,
      insert_emptyc_eq, Finset.mem_singleton] at hx
    rw [hx, List.mem_toFinset]
    exact hk

/-- Witness for C8: appending the duplicate hit `(1, 2, 3)` to a list already
containing the key `(1, 2)` leaves the number of aggregated rows unchanged. -/
theorem aggregate_candidates_spec_witness :
    (aggregate_candidates ([⟨1, 2, 5⟩, ⟨1, 2, 7⟩] ++ [⟨1, 2, 3⟩])).length =
      (aggregate_candidates [⟨1, 2, 5⟩, ⟨1, 2, 7⟩]).length :=
  (aggregate_candidates_spec [⟨1, 2, 5⟩, ⟨1, 2, 7⟩]).2.2.2 ⟨1, 2, 3⟩
    (by simp [Hit.key])

/-! ## C6: the `average_precision` formula -/

theorem all_zip_le_of_chain : ∀ (l : List ℚ), List.Chain' (· ≤ ·) l →
    (List.zipWith (fun a b => decide (a ≤ b)) l.dropLast (l.drop 1)).all (fun b => b) = true
  | [], _ => rfl
  | [_], _ => rfl
  | x :: y :: t, h => by
      have h1 := (List.chain'_cons.mp h).1
      have h2 := (List.chain'_cons.mp h).2
      have ih := all_zip_le_of_chain (y :: t) h2
      rw [List.dropLast_cons₂]
      have hd : (x :: y :: t).drop 1 = y :: t := rfl
      rw [hd, List.zipWith_cons_cons, List.all_cons]
      have hd2 : (y :: t).drop 1 = t := rfl
      rw [hd2] at ih
      rw [ih, decide_eq_true h1]
      rfl

theorem zipWith_map_fin {γ : Type} (f : FVal → FVal → γ) (g : ℚ → ℚ → γ)
    (hf : ∀ a b, f (FVal.fin a) (FVal.fin b) = g a b) :
    ∀ (r s : List ℚ), List.zipWith f (r.map FVal.fin) (s.map FVal.fin) = List.zipWith g r s
  | [], _ => by simp
  | _ :: _, [] => by simp
  | a :: r, b :: s => by
      rw [List.map_cons, List.map_cons, List.zipWith_cons_cons, List.zipWith_cons_cons,
        hf, zipWith_map_fin f g hf r s]

theorem foldl_addF_fin : ∀ (l : List ℚ) (q : ℚ),
    List.foldl FVal.addF (FVal.fin q) (l.map FVal.fin) = FVal.fin (List.foldl (· + ·) q l)
  | [], _ => rfl
  | a :: t, q => by
      rw [List.map_cons, List.foldl_cons, List.foldl_cons]
      exact foldl_addF_fin t (q + a)

theorem foldl_add_eq_sum : ∀ (l : List ℚ) (q : ℚ), List.foldl (· + ·) q l = q + l.sum
  | [], q => by simp
  | a :: t, q => by rw [List.foldl_cons, foldl_add_eq_sum t, List.sum_cons]; ring

theorem sumF_map_fin (l : List ℚ) : sumF (l.map FVal.fin) = FVal.fin l.sum := by
  unfold sumF
  rw [foldl_addF_fin, foldl_add_eq_sum]
  norm_num

theorem sum_zip_sub_mul : ∀ (r p : List ℚ) (prev : ℚ),
    (List.zipWith (· * ·) (List.zipWith (· - ·) r (prev :: r.dropLast)) p).sum =
      ∑ k ∈ Finset.range r.length,
        (r.getD k 0 - (if k = 0 then prev else r.getD (k - 1) 0)) * p.getD k 0
  | [], p, prev => by simp
  | a :: r', [], prev => by
      rw [List.zipWith_nil_right]
      symm
      apply Finset.sum_eq_zero
      intro k _
      simp [List.getD]
  | a :: r', b :: p', prev => by
      cases r' with
      | nil =>
          simp [Finset.sum_range_one]
      | cons c t =>
          rw [List.dropLast_cons₂, List.zipWith_cons_cons, List.zipWith_cons_cons,
            List.sum_cons, sum_zip_sub_mul (c :: t) p' a]
          have hlen : (a :: c :: t).length = (c :: t).length + 1 := rfl
          rw [hlen, Finset.sum_range_succ']
          have hcongr : ∀ k ∈ Finset.range (c :: t).length,
              ((c :: t).getD k 0 - (if k = 0 then a else (c :: t).getD (k - 1) 0)) * p'.getD k 0 =
              ((a :: c :: t).getD (k + 1) 0 -
                (if k + 1 = 0 then prev else (a :: c :: t).getD (k + 1 - 1) 0)) *
                (b :: p').getD (k + 1) 0 := by
            intro k _
            cases k with
            | zero => simp
            | succ k => simp
          rw [Finset.sum_congr rfl hcongr]
          simp [add_comm]

/-- **C6** (confirmed).  For every pair of equal-length arrays with recalls
non-decreasing, `average_precision` returns (without raising) exactly the
spec's formula `Σ_k (recall_k − recall_{k−1}) × precision_k` with
`recall_0 = 0`. -/
theorem average_precision_formula (r p : List ℚ) (_hlen : r.length = p.length)
    (hsorted : List.Chain' (· ≤ ·) r) :
    average_precision (r.map FVal.fin) (p.map FVal.fin) =
      .ok (FVal.fin (specAveragePrecision r p)) := by
  unfold average_precision
  have hcheck : (List.zipWith FVal.leF (r.map FVal.fin).dropLast
      ((r.map FVal.fin).drop 1)).all (fun b => b) = true := by
    rw [← List.map_dropLast, ← List.map_drop,
      zipWith_map_fin FVal.leF (fun a b => decide (a ≤ b)) (fun a b => rfl)]
    exact all_zip_le_of_chain r hsorted
  rw [if_pos hcheck]
  have h0 : FVal.fin 0 :: (r.map FVal.fin).dropLast = (0 :: r.dropLast).map FVal.fin := by
    rw [List.map_cons, List.map_dropLast]
  rw [h0, zipWith_map_fin FVal.subF (fun a b => FVal.fin (a - b)) (fun a b => rfl),
    ← List.map_zipWith FVal.fin (· - ·),
    zipWith_map_fin FVal.mulF (fun a b => FVal.fin (a * b)) (fun a b => rfl),
    ← List.map_zipWith FVal.fin (· * ·), sumF_map_fin, sum_zip_sub_mul r p 0]
  rfl

/-- Witness for C6: the spec's concrete curve
`recalls = [0.5, 0.5, 1]`, `precisions = [1, 0.5, 2/3]` gives
`AP = 5/6 ≈ 0.833`. -/
theorem average_precision_formula_witness :
    average_precision [FVal.fin (1/2), FVal.fin (1/2), FVal.fin 1]
      [FVal.fin 1, FVal.fin (1/2), FVal.fin (2/3)] = .ok (FVal.fin (5/6)) := by
  have h := average_precision_formula [1/2, 1/2, 1] [1, 1/2, 2/3] rfl
    (by norm_num [List.chain'_cons, List.chain'_singleton])
  simp only [List.map_cons, List.map_nil] at h
  rw [h]
  norm_num [specAveragePrecision, Finset.sum_range_succ, List.getD_cons_zero,
    List.getD_cons_succ]

/-! ## C2 and C7: the crop step of `search_with_capped_res` -/

theorem filter_mem_perm {α : Type} [DecidableEq α] (l o : List α)
    (hl : l.Nodup) (ho : o.Nodup) (hsub : ∀ x ∈ o, x ∈ l) :
    (l.filter (fun x => x ∈ o)).Perm o := by
  apply List.perm_of_nodup_nodup_toFinset_eq (hl.filter _) ho
  ext x
  simp only [List.mem_toFinset, List.mem_filter, decide_eq_true_eq]
  exact ⟨fun hx => hx.2, fun hx => ⟨hsub x hx, hx⟩⟩

theorem cropIndices_spec (dis : List ℚ) (k : ℕ) :
    (cropIndices dis k).Nodup ∧
    (∀ i ∈ cropIndices dis k, i < dis.length) ∧
    (k ≤ dis.length → (cropIndices dis k).length = k) ∧
    (∀ i ∈ cropIndices dis k, ∀ j, j < dis.length → j ∉ cropIndices dis k →
      dis.getD i 0 ≤ dis.getD j 0) := by
  have htot : IsTotal ℕ (fun i j =>
      dis.getD i 0 < dis.getD j 0 ∨ (dis.getD i 0 = dis.getD j 0 ∧ i ≤ j)) := by
    constructor
    intro i j
    rcases lt_trichotomy (dis.getD i 0) (dis.getD j 0) with hlt | heq | hgt
    · exact Or.inl (Or.inl hlt)
    · rcases Nat.le_total i j with hij | hji
      · exact Or.inl (Or.inr ⟨heq, hij⟩)
      · exact Or.inr (Or.inr ⟨heq.symm, hji⟩)
    · exact Or.inr (Or.inl hgt)
  have htrans : IsTrans ℕ (fun i j =>
      dis.getD i 0 < dis.getD j 0 ∨ (dis.getD i 0 = dis.getD j 0 ∧ i ≤ j)) := by
    constructor
    rintro a b c (hab | ⟨hab, hab'⟩) (hbc | ⟨hbc, hbc'⟩)
    · exact Or.inl (lt_trans hab hbc)
    · exact Or.inl (hbc ▸ hab)
    · exact Or.inl (hab ▸ hbc)
    · exact Or.inr ⟨hab.trans hbc, hab'.trans hbc'⟩
  have hperm := List.perm_insertionSort (fun i j =>
      dis.getD i 0 < dis.getD j 0 ∨ (dis.getD i 0 = dis.getD j 0 ∧ i ≤ j))
    (List.range dis.length)
  have hsorted := List.sorted_insertionSort (fun i j =>
      dis.getD i 0 < dis.getD j 0 ∨ (dis.getD i 0 = dis.getD j 0 ∧ i ≤ j))
    (List.range dis.length)
  have hLnodup : (List.insertionSort (fun i j =>
      dis.getD i 0 < dis.getD j 0 ∨ (dis.getD i 0 = dis.getD j 0 ∧ i ≤ j))
      (List.range dis.length)).Nodup :=
    hperm.nodup_iff.mpr (List.nodup_range dis.length)
  have hLlen := hperm.length_eq
  rw [List.length_range] at hLlen
  have hcrop : cropIndices dis k = (List.insertionSort (fun i j =>
      dis.getD i 0 < dis.getD j 0 ∨ (dis.getD i 0 = dis.getD j 0 ∧ i ≤ j))
      (List.range dis.length)).take k := rfl
  refine ⟨hcrop ▸ (List.take_sublist k _).nodup hLnodup, ?_, ?_, ?_⟩
  · intro i hi
    rw [hcrop] at hi
    have : i ∈ List.range dis.length :=
      hperm.mem_iff.mp ((List.take_sublist k _).subset hi)
    exact List.mem_range.mp this
  · intro hk
    rw [hcrop, List.length_take, hLlen]
    exact Nat.min_eq_left hk
  · intro i hi j hj hnj
    rw [hcrop] at hi hnj
    obtain ⟨a, ha, hia⟩ := List.mem_iff_getElem.mp hi
    have hak : a < k := by rw [List.length_take] at ha; omega
    have haL : a < (List.insertionSort (fun i j =>
        dis.getD i 0 < dis.getD j 0 ∨ (dis.getD i 0 = dis.getD j 0 ∧ i ≤ j))
        (List.range dis.length)).length := by
      rw [List.length_take] at ha
      omega
    have hjL : j ∈ List.insertionSort (fun i j =>
        dis.getD i 0 < dis.getD j 0 ∨ (dis.getD i 0 = dis.getD j 0 ∧ i ≤ j))
        (List.range dis.length) :=
      hperm.mem_iff.mpr (List.mem_range.mpr hj)
    obtain ⟨b, hb, hjb⟩ := List.mem_iff_getElem.mp hjL
    have hbk : k ≤ b := by
      by_contra hbk
      push_neg at hbk
      apply hnj
      apply List.mem_iff_getElem.mpr
      refine ⟨b, by rw [List.length_take]; omega, ?_⟩
      rw [List.getElem_take]
      exact hjb
    have hab : a < b := lt_of_lt_of_le hak hbk
    have hpw := List.pairwise_iff_getElem.mp hsorted a b haL hb hab
    rw [List.getElem_take] at hia
    rw [hia, hjb] at hpw
    rcases hpw with hlt | ⟨heq, _⟩
    · exact le_of_lt hlt
    · exact le_of_eq heq

/-- **C2** (confirmed).  When the raw hit count `n = len(dis)` exceeds the
target `num_results`, the crop step retains exactly `num_results`
(distance, id) pairs, and every retained position's score `-dis` is at least
every dropped position's score.  (`np.argpartition`'s selection guarantee is
modelled by the deterministic smallest-`(distance, position)` choice
`cropIndices`, which satisfies the same partition contract.) -/
theorem search_with_capped_res_crop_retains_best
    (nq : ℕ) (lims : List ℕ) (dis : List ℚ) (ids : List ℤ) (num_results : ℕ)
    (h : num_results < dis.length) :
    ((search_with_capped_res_crop nq lims dis ids num_results).2.1).length = num_results ∧
    ((search_with_capped_res_crop nq lims dis ids num_results).2.2).length = num_results ∧
    (∀ i ∈ cropIndices dis num_results, ∀ j, j < dis.length →
      j ∉ cropIndices dis num_results →
      -(dis.getD j 0) ≤ -(dis.getD i 0)) := by
  obtain ⟨hnodup, hmem, hlen, hbest⟩ := cropIndices_spec dis num_results
  have hkeep : ((List.range dis.length).filter
      (fun j => j ∈ cropIndices dis num_results)).length = num_results := by
    rw [(filter_mem_perm (List.range dis.length) (cropIndices dis num_results)
      (List.nodup_range _) hnodup
      (fun x hx => List.mem_range.mpr (hmem x hx))).length_eq]
    exact hlen (le_of_lt h)
  unfold search_with_capped_res_crop
  rw [if_pos h]
  refine ⟨?_, ?_, ?_⟩
  · simpa using hkeep
  · simpa using hkeep
  · intro i hi j hj hnj
    exact neg_le_neg (hbest i hi j hj hnj)

/-- Witness for C2 on the concrete raw result `dis = [3, 1, 2]` cropped to
`num_results = 2`. -/
theorem search_with_capped_res_crop_retains_best_witness :
    ((search_with_capped_res_crop 2 [0, 2, 3] [3, 1, 2] [10, 11, 12] 2).2.1).length = 2 ∧
    ((search_with_capped_res_crop 2 [0, 2, 3] [3, 1, 2] [10, 11, 12] 2).2.2).length = 2 :=
  ⟨(search_with_capped_res_crop_retains_best 2 [0, 2, 3] [3, 1, 2] [10, 11, 12] 2
    (by norm_num)).1,
   (search_with_capped_res_crop_retains_best 2 [0, 2, 3] [3, 1, 2] [10, 11, 12] 2
    (by norm_num)).2.1⟩

theorem cumsum_length : ∀ l : List ℕ, (cumsum l).length = l.length
  | [] => rfl
  | x :: xs => by
      show (x :: (cumsum xs).map (x + ·)).length = (x :: xs).length
      rw [List.length_cons, List.length_map, cumsum_length xs, List.length_cons]

theorem cumsum_getD : ∀ (l : List ℕ) (i : ℕ), i < l.length →
    (cumsum l).getD i 0 = (l.take (i + 1)).sum
  | [], i, h => by simp at h
  | x :: xs, 0, _ => by
      show (x :: (cumsum xs).map (x + ·)).getD 0 0 = _
      simp
  | x :: xs, i + 1, h => by
      show (x :: (cumsum xs).map (x + ·)).getD (i + 1) 0 = ((x :: xs).take (i + 2)).sum
      rw [List.getD_cons_succ]
      have hx : i < xs.length := Nat.lt_of_succ_lt_succ h
      have hlen : i < ((cumsum xs).map (x + ·)).length := by
        rw [List.length_map, cumsum_length]; exact hx
      rw [List.getD_eq_getElem?_getD, List.getElem?_eq_getElem hlen, Option.getD_some,
        List.getElem_map]
      have hrec := cumsum_getD xs i hx
      rw [List.getD_eq_getElem?_getD,
        List.getElem?_eq_getElem (by rw [cumsum_length]; exact hx), Option.getD_some] at hrec
      rw [hrec, List.take_succ_cons, List.sum_cons]

/-- **C7** (confirmed).  Given a well-formed raw boundary array (`lims[0] = 0`,
non-decreasing, `lims[nq] = len(dis)` — the faiss output contract), the
triple returned by the crop step has `lims[0] = 0`, per-query differences
`lims[i+1] − lims[i]` equal to the number of raw positions of query `i`'s
segment that were retained, and a final total `lims[nq]` that never exceeds
`num_results`, being exactly `num_results` whenever the raw count exceeded
it. -/
theorem search_with_capped_res_lims
    (nq : ℕ) (lims : List ℕ) (dis : List ℚ) (ids : List ℤ) (num_results : ℕ)
    (hlen : lims.length = nq + 1)
    (h0 : lims.getD 0 0 = 0)
    (hmono : ∀ i, i < nq → lims.getD i 0 ≤ lims.getD (i + 1) 0)
    (hlast : lims.getD nq 0 = dis.length) :
    (search_with_capped_res_crop nq lims dis ids num_results).1.getD 0 0 = 0 ∧
    (∀ i, i < nq →
      (search_with_capped_res_crop nq lims dis ids num_results).1.getD (i + 1) 0 -
        (search_with_capped_res_crop nq lims dis ids num_results).1.getD i 0 =
      (List.range' (lims.getD i 0) (lims.getD (i + 1) 0 - lims.getD i 0)).countP
        (fun j => j ∈ retainedIndices dis num_results)) ∧
    (search_with_capped_res_crop nq lims dis ids num_results).1.getD nq 0 ≤ num_results ∧
    (num_results < dis.length →
      (search_with_capped_res_crop nq lims dis ids num_results).1.getD nq 0 = num_results) := by
  have hchain : ∀ d j, j + d = nq → lims.getD j 0 ≤ lims.getD nq 0 := by
    intro d
    induction d with
    | zero =>
        intro j hj
        rw [Nat.add_zero] at hj
        subst hj
        exact le_rfl
    | succ d ih =>
        intro j hj
        exact le_trans (hmono j (by omega)) (ih (j + 1) (by omega))
  by_cases hcrop : num_results < dis.length
  · -- crop branch
    obtain ⟨hnodup, hmem, hklen, _⟩ := cropIndices_spec dis num_results
    have hret : retainedIndices dis num_results = cropIndices dis num_results := by
      unfold retainedIndices
      rw [if_pos hcrop]
    have hout : (search_with_capped_res_crop nq lims dis ids num_results).1 =
        cumsum (0 :: (List.range nq).map (fun i =>
          (List.range' (lims.getD i 0) (lims.getD (i + 1) 0 - lims.getD i 0)).countP
            (fun j => j ∈ cropIndices dis num_results))) := by
      unfold search_with_capped_res_crop
      rw [if_pos hcrop]
    have hclen : ((List.range nq).map (fun i =>
        (List.range' (lims.getD i 0) (lims.getD (i + 1) 0 - lims.getD i 0)).countP
          (fun j => j ∈ cropIndices dis num_results))).length = nq := by
      rw [List.length_map, List.length_range]
    rw [hout, hret]
    have hcums : ∀ i, i < nq + 1 →
        (cumsum (0 :: (List.range nq).map (fun i =>
          (List.range' (lims.getD i 0) (lims.getD (i + 1) 0 - lims.getD i 0)).countP
            (fun j => j ∈ cropIndices dis num_results)))).getD i 0 =
        ((0 :: (List.range nq).map (fun i =>
          (List.range' (lims.getD i 0) (lims.getD (i + 1) 0 - lims.getD i 0)).countP
            (fun j => j ∈ cropIndices dis num_results))).take (i + 1)).sum := by
      intro i hi
      exact cumsum_getD _ i (by rw [List.length_cons, hclen]; exact hi)
    refine ⟨?_, ?_, ?_⟩
    · rw [hcums 0 (by omega)]
      simp
    · intro i hi
      rw [hcums (i + 1) (by omega), hcums i (by omega),
        List.sum_take_succ _ (i + 1) (by rw [List.length_cons, hclen]; omega),
        Nat.add_sub_cancel_left, List.getElem_cons_succ, List.getElem_map,
        List.getElem_range]
    · have htot : (cumsum (0 :: (List.range nq).map (fun i =>
          (List.range' (lims.getD i 0) (lims.getD (i + 1) 0 - lims.getD i 0)).countP
            (fun j => j ∈ cropIndices dis num_results)))).getD nq 0 = num_results := by
        rw [hcums nq (by omega),
          List.take_of_length_le (by rw [List.length_cons, hclen]),
          List.sum_cons, Nat.zero_add]
        have hpart : ∀ m, m ≤ nq → (((List.range m).map (fun i =>
            (List.range' (lims.getD i 0) (lims.getD (i + 1) 0 - lims.getD i 0)).countP
              (fun j => j ∈ cropIndices dis num_results))).sum) =
            (List.range' 0 (lims.getD m 0)).countP
              (fun j => j ∈ cropIndices dis num_results) := by
          intro m
          induction m with
          | zero =>
              intro _
              rw [h0]
              rfl
          | succ m ih =>
              intro hm
              rw [List.range_succ, List.map_append, List.sum_append,
                ih (by omega)]
              have hmle := hmono m (by omega)
              have happ := List.range'_append 0 (lims.getD m 0)
                (lims.getD (m + 1) 0 - lims.getD m 0) 1
              rw [Nat.zero_add, Nat.one_mul] at happ
              have happ' : List.range' 0 (lims.getD m 0) ++
                  List.range' (lims.getD m 0) (lims.getD (m + 1) 0 - lims.getD m 0) =
                  List.range' 0 (lims.getD (m + 1) 0) := by
                rw [happ]
                congr 1
                omega
              rw [← happ', List.countP_append]
              simp
        rw [hpart nq le_rfl, hlast, ← List.range_eq_range',
          List.countP_eq_length_filter,
          (filter_mem_perm (List.range dis.length) (cropIndices dis num_results)
            (List.nodup_range _) hnodup
            (fun x hx => List.mem_range.mpr (hmem x hx))).length_eq]
        exact hklen (le_of_lt hcrop)
      rw [htot]
      exact ⟨le_rfl, fun _ => rfl⟩
  · -- no crop: the raw triple is returned unchanged
    have hret : retainedIndices dis num_results = List.range dis.length := by
      unfold retainedIndices
      rw [if_neg hcrop]
    have hout : (search_with_capped_res_crop nq lims dis ids num_results).1 = lims := by
      unfold search_with_capped_res_crop
      rw [if_neg hcrop]
    rw [hout, hret]
    refine ⟨h0, ?_, ?_⟩
    · intro i hi
      have hall : ∀ j ∈ List.range' (lims.getD i 0) (lims.getD (i + 1) 0 - lims.getD i 0),
          (decide (j ∈ List.range dis.length)) = true := by
        intro j hj
        rw [List.mem_range'_1] at hj
        have hup : lims.getD (i + 1) 0 ≤ dis.length := by
          rw [← hlast]
          exact hchain (nq - (i + 1)) (i + 1) (by omega)
        simp only [decide_eq_true_eq, List.mem_range]
        omega
      rw [List.countP_eq_length_filter, List.filter_eq_self.mpr hall, List.length_range']
    · rw [hlast]
      push_neg at hcrop
      exact ⟨hcrop, fun hc => absurd hc (by omega)⟩

/-- Witness for C7 on the same concrete crop as the C2 witness. -/
theorem search_with_capped_res_lims_witness :
    (search_with_capped_res_crop 2 [0, 2, 3] [3, 1, 2] [10, 11, 12] 2).1.getD 0 0 = 0 ∧
    (search_with_capped_res_crop 2 [0, 2, 3] [3, 1, 2] [10, 11, 12] 2).1.getD 2 0 ≤ 2 := by
  have h := search_with_capped_res_lims 2 [0, 2, 3] [3, 1, 2] [10, 11, 12] 2
    (by decide) (by decide)
    (by intro i hi; interval_cases i <;> decide) (by decide)
  exact ⟨h.1, h.2.2.1⟩

/-! ## C1: the tie-breaking order of `precision_recall` -/

theorem pyEqF_symm (a b : FVal) : FVal.pyEqF a b = FVal.pyEqF b a := by
  cases a <;> cases b <;> first
  | rfl
  | skip
  rw [Bool.eq_iff_iff]
  simp only [FVal.pyEqF, beq_iff_eq]
  exact eq_comm

theorem pyLtF_asymm (a b : FVal) (h : FVal.pyLtF a b = true) : FVal.pyLtF b a = false := by
  cases a <;> cases b <;> simp_all [FVal.pyLtF]
  linarith

theorem pyLtKey_asymm (k1 k2 : FVal × Bool) (h : pyLtKey k1 k2 = true) :
    pyLtKey k2 k1 = false := by
  unfold pyLtKey at h ⊢
  rw [pyEqF_symm k2.1 k1.1]
  by_cases he : FVal.pyEqF k1.1 k2.1 = true
  · rw [if_pos he] at h ⊢
    cases hb1 : k1.2 <;> cases hb2 : k2.2 <;> simp_all
  · rw [if_neg he] at h ⊢
    exact pyLtF_asymm _ _ h

theorem pyLtKey_fin_eq (q1 q2 : ℚ) (b1 b2 : Bool) :
    pyLtKey (FVal.fin q1, b1) (FVal.fin q2, b2) =
      (decide (q1 < q2) || (decide (q1 = q2) && (!b1 && b2))) := by
  unfold pyLtKey
  simp only [FVal.pyEqF, FVal.pyLtF]
  by_cases he : q1 = q2
  · simp [he]
  · simp [he, beq_iff_eq]

theorem pyLtKey_fin_trans (qa qb qc : ℚ) (ba bb bc : Bool)
    (h1 : pyLtKey (FVal.fin qb, bb) (FVal.fin qa, ba) = false)
    (h2 : pyLtKey (FVal.fin qc, bc) (FVal.fin qb, bb) = false) :
    pyLtKey (FVal.fin qc, bc) (FVal.fin qa, ba) = false := by
  rw [pyLtKey_fin_eq] at h1 h2 ⊢
  simp only [Bool.or_eq_false_iff, Bool.and_eq_false_iff, decide_eq_false_iff_not] at h1 h2 ⊢
  obtain ⟨h1lt, h1eq⟩ := h1
  obtain ⟨h2lt, h2eq⟩ := h2
  have hab : qa ≤ qb := not_lt.mp h1lt
  have hbc : qb ≤ qc := not_lt.mp h2lt
  constructor
  · intro hca; linarith
  · by_cases hca : qc = qa
    · have hba : qb = qa := le_antisymm (by linarith) hab
      rcases h1eq with h | h | h
      · exact absurd hba h
      · rcases h2eq with h' | h' | h'
        · exact absurd (by linarith : qc = qb) h'
        · exact Or.inr (Or.inl h')
        · simp [h'] at h
      · exact Or.inr (Or.inr h)
    · exact Or.inl hca

/-- **C1 counterexample**.  The claim says non-matching candidates sort
*after* matching candidates at equal score.  With `y_true = [True, False]`
and equal scores `0.5`, the order actually computed is `[1, 0]`: the
non-matching candidate (index 1) comes *first*, i.e. before the matching
one — the worst-case order the code's own comment intends. -/
theorem precision_recall_tie_order_counterexample :
    prOrder [true, false] [FVal.fin (1/2), FVal.fin (1/2)] = [1, 0] := by
  norm_num [prOrder, prKeys, argsort, List.insertionSort, List.orderedInsert, pyLtKey,
    FVal.pyEqF, FVal.pyLtF]

/-- **C1** (amended).  In `precision_recall`'s sort (score descending), at
equal scores non-matching candidates sort *before* matching ones: once a
matching candidate appears at some score, every later candidate at that same
score is also matching.  (Scores are assumed finite; NaNs make Python's sort
order unspecified.) -/
theorem precision_recall_tie_order (y_true : List Bool) (probas_pred : List FVal)
    (hfin : ∀ x ∈ probas_pred, x.isFin = true)
    (a b : ℕ) (hab : a < b) (hb : b < (prOrder y_true probas_pred).length)
    (hscore : probas_pred.getD ((prOrder y_true probas_pred).getD a 0) (FVal.fin 0) =
      probas_pred.getD ((prOrder y_true probas_pred).getD b 0) (FVal.fin 0))
    (hmatch : y_true.getD ((prOrder y_true probas_pred).getD a 0) false = true) :
    y_true.getD ((prOrder y_true probas_pred).getD b 0) false = true := by
  have ha : a < (prOrder y_true probas_pred).length := lt_trans hab hb
  have hfinD : ∀ m, (probas_pred.getD m (FVal.fin 0)).isFin = true := by
    intro m
    by_cases hm : m < probas_pred.length
    · rw [List.getD_eq_getElem?_getD, List.getElem?_eq_getElem hm, Option.getD_some]
      exact hfin _ (List.mem_iff_getElem.mpr ⟨m, hm, rfl⟩)
    · rw [List.getD_eq_getElem?_getD, List.getElem?_eq_none (by omega), Option.getD_none]
      rfl
  have hkeyD : ∀ m, m < (prKeys y_true probas_pred).length →
      (prKeys y_true probas_pred).getD m (FVal.fin 0, false) =
        (probas_pred.getD m (FVal.fin 0), !(y_true.getD m false)) := by
    intro m hm
    have hm' := hm
    rw [prKeys, List.length_zip, List.length_map] at hm'
    have hm1 : m < probas_pred.length := by omega
    have hm2 : m < y_true.length := by omega
    rw [List.getD_eq_getElem?_getD, List.getElem?_eq_getElem hm, Option.getD_some]
    show (probas_pred.zip (y_true.map (!·)))[m] = _
    rw [List.getElem_zip, List.getElem_map]
    rw [List.getD_eq_getElem?_getD, List.getElem?_eq_getElem hm1, Option.getD_some,
      List.getD_eq_getElem?_getD, List.getElem?_eq_getElem hm2, Option.getD_some]
  have hkfin : ∀ m, ∃ q bb, (prKeys y_true probas_pred).getD m (FVal.fin 0, false) =
      (FVal.fin q, bb) := by
    intro m
    by_cases hm : m < (prKeys y_true probas_pred).length
    · rw [hkeyD m hm]
      have hf := hfinD m
      rcases hv : probas_pred.getD m (FVal.fin 0) with q | _ | _ | _
      · exact ⟨q, _, rfl⟩
      all_goals rw [hv] at hf
      all_goals cases hf
    · rw [List.getD_eq_getElem?_getD, List.getElem?_eq_none (by omega), Option.getD_none]
      exact ⟨0, false, rfl⟩
  haveI htot : IsTotal ℕ (fun i j =>
      pyLtKey ((prKeys y_true probas_pred).getD j (FVal.fin 0, false))
        ((prKeys y_true probas_pred).getD i (FVal.fin 0, false)) = false) := by
    constructor
    intro i j
    rcases Bool.eq_false_or_eq_true (pyLtKey
        ((prKeys y_true probas_pred).getD j (FVal.fin 0, false))
        ((prKeys y_true probas_pred).getD i (FVal.fin 0, false))) with h | h
    · exact Or.inr (pyLtKey_asymm _ _ h)
    · exact Or.inl h
  haveI htrans : IsTrans ℕ (fun i j =>
      pyLtKey ((prKeys y_true probas_pred).getD j (FVal.fin 0, false))
        ((prKeys y_true probas_pred).getD i (FVal.fin 0, false)) = false) := by
    constructor
    intro i j k hij hjk
    obtain ⟨qi, bi, hki⟩ := hkfin i
    obtain ⟨qj, bj, hkj⟩ := hkfin j
    obtain ⟨qk, bk, hkk⟩ := hkfin k
    simp only [hki, hkj, hkk] at hij hjk ⊢
    exact pyLtKey_fin_trans qi qj qk bi bj bk hij hjk
  have hsorted := List.sorted_insertionSort (fun i j =>
      pyLtKey ((prKeys y_true probas_pred).getD j (FVal.fin 0, false))
        ((prKeys y_true probas_pred).getD i (FVal.fin 0, false)) = false)
    (List.range (prKeys y_true probas_pred).length)
  have hperm := List.perm_insertionSort (fun i j =>
      pyLtKey ((prKeys y_true probas_pred).getD j (FVal.fin 0, false))
        ((prKeys y_true probas_pred).getD i (FVal.fin 0, false)) = false)
    (List.range (prKeys y_true probas_pred).length)
  have hord : prOrder y_true probas_pred = (List.insertionSort (fun i j =>
      pyLtKey ((prKeys y_true probas_pred).getD j (FVal.fin 0, false))
        ((prKeys y_true probas_pred).getD i (FVal.fin 0, false)) = false)
    (List.range (prKeys y_true probas_pred).length)).reverse := rfl
  have hpw : (prOrder y_true probas_pred).Pairwise (fun i j =>
      pyLtKey ((prKeys y_true probas_pred).getD i (FVal.fin 0, false))
        ((prKeys y_true probas_pred).getD j (FVal.fin 0, false)) = false) := by
    rw [hord]
    exact List.pairwise_reverse.mpr hsorted
  rw [List.getD_eq_getElem?_getD (prOrder y_true probas_pred) a,
    List.getElem?_eq_getElem ha, Option.getD_some] at hscore hmatch
  rw [List.getD_eq_getElem?_getD (prOrder y_true probas_pred) b,
    List.getElem?_eq_getElem hb, Option.getD_some] at hscore ⊢
  have hmemAll : ∀ x ∈ prOrder y_true probas_pred, x < (prKeys y_true probas_pred).length := by
    intro x hxm
    rw [hord] at hxm
    exact List.mem_range.mp (hperm.mem_iff.mp (List.mem_reverse.mp hxm))
  have hmemA : (prOrder y_true probas_pred)[a] < (prKeys y_true probas_pred).length :=
    hmemAll _ (List.mem_iff_getElem.mpr ⟨a, ha, rfl⟩)
  have hmemB : (prOrder y_true probas_pred)[b] < (prKeys y_true probas_pred).length :=
    hmemAll _ (List.mem_iff_getElem.mpr ⟨b, hb, rfl⟩)
  have hpab := List.pairwise_iff_getElem.mp hpw a b ha hb hab
  rw [hkeyD _ hmemA, hkeyD _ hmemB] at hpab
  obtain ⟨q, hq⟩ : ∃ q, probas_pred.getD ((prOrder y_true probas_pred)[a]) (FVal.fin 0)
      = FVal.fin q := by
    have hf := hfinD ((prOrder y_true probas_pred)[a])
    rcases hv : probas_pred.getD ((prOrder y_true probas_pred)[a]) (FVal.fin 0)
      with q | _ | _ | _
    · exact ⟨q, rfl⟩
    all_goals rw [hv] at hf
    all_goals cases hf
  have hqB : probas_pred.getD ((prOrder y_true probas_pred)[b]) (FVal.fin 0) = FVal.fin q :=
    hscore ▸ hq
  rw [hq, hqB, hmatch, pyLtKey_fin_eq] at hpab
  simpa using hpab

/-- Witness for the amended C1: with two matching candidates at equal score
`0.5`, the candidate placed second by the computed order is matching. -/
theorem precision_recall_tie_order_witness :
    [true, true].getD ((prOrder [true, true] [FVal.fin (1/2), FVal.fin (1/2)]).getD 1 0)
      false = true := by
  have hord : prOrder [true, true] [FVal.fin (1/2), FVal.fin (1/2)] = [1, 0] := by
    norm_num [prOrder, prKeys, argsort, List.insertionSort, List.orderedInsert, pyLtKey,
      FVal.pyEqF, FVal.pyLtF]
  exact precision_recall_tie_order [true, true] [FVal.fin (1/2), FVal.fin (1/2)]
    (by
      intro x hx
      rcases List.mem_cons.mp hx with rfl | hx2
      · rfl
      rcases List.mem_cons.mp hx2 with rfl | hx3
      · rfl
      cases hx3)
    0 1 (by norm_num) (by rw [hord]; norm_num) (by rw [hord]; rfl) (by rw [hord]; rfl)

/-! ## C3 and C9: behaviour of the metric engine at degenerate inputs -/

theorem prKeys_length (y_true : List Bool) (probas_pred : List FVal) :
    (prKeys y_true probas_pred).length = min probas_pred.length y_true.length := by
  unfold prKeys
  rw [List.length_zip, List.length_map]

theorem prOrder_length (y_true : List Bool) (probas_pred : List FVal) :
    (prOrder y_true probas_pred).length = min probas_pred.length y_true.length := by
  unfold prOrder argsort
  rw [List.length_reverse, List.length_insertionSort, List.length_range, prKeys_length]

theorem cumsum_replicate_zero : ∀ n : ℕ, cumsum (List.replicate n 0) = List.replicate n 0
  | 0 => rfl
  | n + 1 => by
      show 0 :: (cumsum (List.replicate n 0)).map (0 + ·) = List.replicate (n + 1) 0
      rw [cumsum_replicate_zero n, List.map_replicate]
      simp [List.replicate_succ]

/-- With an all-false judgement vector and zero positives, every recall value
is `0/0 = NaN`. -/
theorem precision_recall_allfalse_recalls (y_true : List Bool) (probas_pred : List FVal)
    (hally : ∀ b ∈ y_true, b = false) :
    (precision_recall y_true probas_pred 0).2.1 =
      List.replicate (prOrder y_true probas_pred).length FVal.nan := by
  have hgety : ∀ i, y_true.getD i false = false := by
    intro i
    by_cases hi : i < y_true.length
    · rw [List.getD_eq_getElem?_getD, List.getElem?_eq_getElem hi, Option.getD_some]
      exact hally _ (List.mem_iff_getElem.mpr ⟨i, hi, rfl⟩)
    · rw [List.getD_eq_getElem?_getD, List.getElem?_eq_none (by omega), Option.getD_none]
  have hy : (prOrder y_true probas_pred).map (fun i => y_true.getD i false) =
      List.replicate (prOrder y_true probas_pred).length false := by
    rw [List.eq_replicate_iff]
    refine ⟨by rw [List.length_map], ?_⟩
    intro b hb
    obtain ⟨i, _, rfl⟩ := List.mem_map.mp hb
    exact hgety i
  simp only [precision_recall]
  rw [hy, List.map_replicate]
  norm_num
  rw [cumsum_replicate_zero, List.map_replicate]
  norm_num [FVal.divF]

theorem average_precision_nan_error (p : List FVal) (n : ℕ) (hn : 2 ≤ n) :
    average_precision (List.replicate n FVal.nan) p =
      .error "recalls array must be sorted before passing in" := by
  unfold average_precision
  rw [if_neg]
  intro hall
  rw [List.dropLast_replicate, List.drop_replicate, List.zipWith_replicate,
    List.all_eq_true] at hall
  have hmem : false ∈ List.replicate ((n - 1) ⊓ (n - 1)) (FVal.leF FVal.nan FVal.nan) := by
    rw [List.mem_replicate]
    exact ⟨by omega, rfl⟩
  have := hall false hmem
  simp at this

/-- **C3 counterexample**.  The claim says that with zero ground-truth
positives the engine returns AP `0.0`.  With a nonempty submission of two
rows and a ground-truth table whose only row has a NaN `reference_id`
(zero positives), the recall values are `0/0 = NaN`, the `np.all` sortedness
check fails (`NaN <= NaN` is false), and `average_precision` raises — so
`evaluate_metrics` raises instead of returning `0.0`. -/
theorem evaluate_metrics_zero_positives_counterexample :
    evaluate_metrics [⟨0, 0, FVal.fin (9/10)⟩, ⟨0, 1, FVal.fin (8/10)⟩] [⟨5, none⟩] =
      .error "recalls array must be sorted before passing in" := by
  norm_num [evaluate_metrics, gt_pairs, precision_recall, prOrder, prKeys, argsort,
    List.insertionSort, List.orderedInsert, pyLtKey, FVal.pyEqF, FVal.pyLtF, cumsum,
    FVal.divF, List.zipWith, List.range_succ, average_precision, FVal.leF, List.filterMap]

/-- **C3** (amended).  For every ground-truth table with zero positive pairs
and every submission with at least two candidate rows, `evaluate_metrics`
raises the "recalls array must be sorted" exception (the all-NaN recalls from
`0/0` fail the monotonicity check) instead of returning an AP of `0.0`. -/
theorem evaluate_metrics_zero_positives (sub : List SubRow) (gt : List GtRow)
    (hzero : gt_pairs gt = []) (hlen : 2 ≤ sub.length) :
    evaluate_metrics sub gt = .error "recalls array must be sorted before passing in" := by
  simp only [evaluate_metrics]
  rw [hzero]
  have hrec := precision_recall_allfalse_recalls
    (sub.map (fun row => decide ((row.query_id, row.reference_id) ∈ ([] : List (ℤ × ℤ)))))
    (sub.map (·.score)) (by intro b hb; obtain ⟨row, _, rfl⟩ := List.mem_map.mp hb; simp)
  have hn : (prOrder
      (sub.map (fun row => decide ((row.query_id, row.reference_id) ∈ ([] : List (ℤ × ℤ)))))
      (sub.map (·.score))).length = sub.length := by
    rw [prOrder_length, List.length_map, List.length_map, Nat.min_self]
  rw [List.length_nil, hrec, hn, average_precision_nan_error _ _ hlen]

/-- Witness for the amended C3 at a two-row submission and empty ground
truth. -/
theorem evaluate_metrics_zero_positives_witness :
    evaluate_metrics [⟨1, 1, FVal.fin 1⟩, ⟨1, 2, FVal.fin (1/2)⟩] [] =
      .error "recalls array must be sorted before passing in" :=
  evaluate_metrics_zero_positives [⟨1, 1, FVal.fin 1⟩, ⟨1, 2, FVal.fin (1/2)⟩] []
    (by rfl) (by norm_num)

/-- **C9 counterexample**.  The claim says a NaN candidate score makes
`precision_recall` fail with an `InvalidScoreError`.  No such validation (or
error class) exists in the code: a single-candidate submission whose only
score is NaN is processed end-to-end and `evaluate_metrics` returns the
normal result `(ap = 1.0, rp90 = 1.0)` (the NaN appears only in the
thresholds). -/
theorem precision_recall_nan_counterexample :
    evaluate_metrics [⟨3, 4, FVal.nan⟩] [⟨3, some 4⟩] = .ok (FVal.fin 1, FVal.fin 1) := by
  norm_num [evaluate_metrics, gt_pairs, precision_recall, prOrder, prKeys, argsort,
    List.insertionSort, List.orderedInsert, pyLtKey, FVal.pyEqF, FVal.pyLtF, cumsum,
    FVal.divF, List.zipWith, List.range_succ, average_precision, FVal.leF, List.filterMap,
    sumF, FVal.addF, FVal.subF, FVal.mulF, find_operating_point, npArgmax_singleton,
    List.filter]

/-- **C9** (amended).  `precision_recall` performs no score validation: for
every candidate list containing a NaN or non-finite score it does not fail
but computes a full-length precision-recall curve (all three returned arrays
have the length of the candidate list). -/
theorem precision_recall_nan_no_error (y_true : List Bool) (probas_pred : List FVal)
    (num_positives : ℕ) (_hnan : ∃ x ∈ probas_pred, x.isFin = false) :
    (precision_recall y_true probas_pred num_positives).1.length
        = min probas_pred.length y_true.length ∧
    (precision_recall y_true probas_pred num_positives).2.1.length
        = min probas_pred.length y_true.length ∧
    (precision_recall y_true probas_pred num_positives).2.2.length
        = min probas_pred.length y_true.length := by
  refine ⟨?_, ?_, ?_⟩ <;>
    simp [precision_recall, List.length_zipWith, cumsum_length, prOrder_length]

/-- Witness for the amended C9 at the single NaN-scored candidate. -/
theorem precision_recall_nan_no_error_witness :
    (precision_recall [true] [FVal.nan] 1).1.length = 1 ∧
    (precision_recall [true] [FVal.nan] 1).2.1.length = 1 ∧
    (precision_recall [true] [FVal.nan] 1).2.2.length = 1 := by
  have h := precision_recall_nan_no_error [true] [FVal.nan] 1
    ⟨FVal.nan, by simp, rfl⟩
  simpa using h
